import Mathlib

/-!
Shallow embedding of the 8-puzzle solver (`src/board.rs`, `src/heuristics.rs`,
`src/min_heap.rs`, `src/search.rs`) and verification of the specification claims.

Conventions of the embedding:
* `u8` cell labels carry no arithmetic, so they are modelled as `Nat`.
* Grid indices are `Fin N` (the source indexes fixed `[[Cell; N]; N]` arrays with
  in-range `usize` values; an out-of-range access would be a Rust panic).
* A Rust `panic!`/`expect` is modelled as `none`; fallible operations return `Option`.
* All states are immutable values: `Board::apply` clones the cell array in the source,
  so applying a move is a pure function here, and the receiver is trivially unchanged.
-/

namespace Puzzle

/-- Size of the board (`pub const N: usize = 3`). -/
abbrev N : Nat := 3

/-- The empty-cell marker (`pub const EMPTY_CELL: Nat = 0`; the source's
`type Cell = u8` labels are small and carry no arithmetic, so cells are `Nat`). -/
def EMPTY_CELL : Nat := 0

/-- The four directions the empty cell can move in (`enum Direction`). -/
inductive Direction where
  | Up
  | Down
  | Left
  | Right
deriving DecidableEq, Repr

/-- `Direction::opposite`. -/
def Direction.opposite : Direction → Direction
  | .Up => .Down
  | .Down => .Up
  | .Left => .Right
  | .Right => .Left

/-- `pub const DIRECTIONS: [Direction; 4]`. -/
def DIRECTIONS : List Direction := [.Up, .Down, .Left, .Right]

/-- The board: a square grid of `N × N` cells (`struct Board { cells: [[Cell; N]; N] }`). -/
structure Board where
  cells : Fin N → Fin N → Nat

/-- The row-major enumeration of all grid coordinates, the order in which the
source's `for x in 0..N { for y in 0..N { ... } }` loops visit them. -/
def coordsList : List (Fin N × Fin N) :=
  [(0, 0), (0, 1), (0, 2), (1, 0), (1, 1), (1, 2), (2, 0), (2, 1), (2, 2)]

/-- The cells of a board in row-major order (the source's derived `PartialEq`/`Ord`
on `[[Cell; N]; N]` compare exactly this sequence). -/
def Board.toList (b : Board) : List Nat :=
  coordsList.map fun p => b.cells p.1 p.2

theorem Board.toList_inj {a b : Board} (h : a.toList = b.toList) : a = b := by
  cases a with | mk f =>
  cases b with | mk g =>
  simp only [Board.toList, coordsList, List.map_cons, List.map_nil, List.cons.injEq,
    and_true] at h
  obtain ⟨h1, h2, h3, h4, h5, h6, h7, h8, h9⟩ := h
  congr 1
  funext i j
  fin_cases i <;> fin_cases j <;> assumption

instance : DecidableEq Board := fun a b =>
  if h : a.toList = b.toList then .isTrue (Board.toList_inj h)
  else .isFalse fun e => h (congrArg Board.toList e)

/-- A transport-free decision procedure for `Option Board` equality (the derived
instance rebuilds its result with `Eq.rec`, which blocks kernel reduction because
equal boards need not be definitionally equal functions). -/
instance : DecidableEq (Option Board) := fun a b =>
  match a, b with
  | none, none => .isTrue rfl
  | none, some _ => .isFalse fun e => Option.noConfusion e
  | some _, none => .isFalse fun e => Option.noConfusion e
  | some x, some y =>
    if h : x = y then .isTrue (congrArg some h)
    else .isFalse fun e => h (Option.some.inj e)

/-- Boards compared lexicographically on their row-major cells, the derived `Ord`
of the source's `Board` (used only for heap tie-breaking). `lexLe a b` decides `a <= b`. -/
def lexLe : List Nat → List Nat → Bool
  | [], _ => true
  | _ :: _, [] => false
  | a :: as, b :: bs => if a < b then true else if b < a then false else lexLe as bs

/-- The derived total order on boards, as a boolean `a <= b` test. -/
def Board.ble (a b : Board) : Bool := lexLe a.toList b.toList

/-- `Board::new` applied to a literal `[[Cell; N]; N]` array, written as a list of rows. -/
def Board.ofList (rows : List (List Nat)) : Board :=
  ⟨fun i j => (rows.getD i.val []).getD j.val 0⟩

/-- The goal state (`Board::GOAL`). -/
def Board.GOAL : Board := Board.ofList [[1, 2, 3], [4, 5, 6], [7, 8, 0]]

/-- `Board::value_at` (bounds are structural here; an out-of-range `usize` access
would panic in the source). -/
def Board.value_at (b : Board) (line column : Fin N) : Nat :=
  b.cells line column

/-- `Board::position`: the first coordinate (in row-major loop order) holding `value`.
The source panics when the value is absent; this is modelled by `none`. -/
def Board.position (b : Board) (value : Nat) : Option (Fin N × Fin N) :=
  coordsList.find? fun p => b.cells p.1 p.2 == value

/-- One array write `cells[p.1][p.2] = v` on an (immutably cloned) grid. -/
def setCell (b : Board) (p : Fin N × Fin N) (v : Nat) : Board :=
  ⟨fun i j => if (i, j) = p then v else b.cells i j⟩

/-- The candidate new coordinates of the empty cell in `Board::apply`
(`Up` needs `x > 0`, `Down` needs `x < N - 1`, `Left` needs `y > 0`,
`Right` needs `y < N - 1`; otherwise the move would leave the board). -/
def targetCell (p : Fin N × Fin N) : Direction → Option (Fin N × Fin N)
  | .Up =>
    if h : 0 < p.1.val then some (⟨p.1.val - 1, by omega⟩, p.2) else none
  | .Down =>
    if h : p.1.val < N - 1 then some (⟨p.1.val + 1, by have := p.1.isLt; omega⟩, p.2) else none
  | .Left =>
    if h : 0 < p.2.val then some (p.1, ⟨p.2.val - 1, by omega⟩) else none
  | .Right =>
    if h : p.2.val < N - 1 then some (p.1, ⟨p.2.val + 1, by have := p.2.isLt; omega⟩) else none

/-- `Board::apply`: move the empty cell in the given direction, or `none` when the
move is not applicable. The two writes mirror `new_cells[x][y] = new_cells[new_x][new_y];
new_cells[new_x][new_y] = 0;` on the cloned array. -/
def Board.apply (b : Board) (direction : Direction) : Option Board :=
  match b.position EMPTY_CELL with
  | none => none
  | some p =>
    match targetCell p direction with
    | none => none
    | some q => some (setCell (setCell b p (b.cells q.1 q.2)) q 0)

/-- The benchmark fixture `INSTANCES`: pairs of a known optimal distance and a start state. -/
def INSTANCES : List (Nat × Board) :=
  [(0, Board.ofList [[1, 2, 3], [4, 5, 6], [7, 8, 0]]),
   (1, Board.ofList [[1, 2, 3], [4, 5, 6], [7, 0, 8]]),
   (2, Board.ofList [[1, 2, 3], [4, 5, 6], [0, 7, 8]]),
   (3, Board.ofList [[1, 2, 3], [4, 8, 5], [7, 0, 6]]),
   (4, Board.ofList [[1, 5, 2], [4, 0, 3], [7, 8, 6]]),
   (5, Board.ofList [[4, 1, 3], [0, 2, 6], [7, 5, 8]]),
   (6, Board.ofList [[4, 1, 3], [7, 2, 6], [0, 5, 8]]),
   (7, Board.ofList [[5, 1, 3], [0, 2, 6], [4, 7, 8]]),
   (8, Board.ofList [[5, 4, 2], [1, 0, 3], [7, 8, 6]]),
   (9, Board.ofList [[8, 1, 3], [0, 2, 5], [4, 7, 6]]),
   (10, Board.ofList [[8, 1, 3], [4, 2, 5], [0, 7, 6]]),
   (11, Board.ofList [[8, 1, 3], [4, 2, 5], [7, 0, 6]]),
   (12, Board.ofList [[8, 4, 2], [1, 0, 3], [7, 6, 5]]),
   (13, Board.ofList [[8, 4, 3], [0, 1, 5], [2, 7, 6]]),
   (14, Board.ofList [[8, 7, 3], [2, 0, 5], [1, 4, 6]]),
   (15, Board.ofList [[8, 7, 3], [2, 5, 0], [1, 4, 6]]),
   (16, Board.ofList [[8, 7, 3], [4, 1, 5], [0, 2, 6]]),
   (17, Board.ofList [[8, 7, 3], [4, 1, 5], [2, 0, 6]]),
   (18, Board.ofList [[8, 7, 5], [3, 0, 2], [1, 4, 6]]),
   (19, Board.ofList [[8, 7, 5], [3, 4, 2], [1, 0, 6]]),
   (20, Board.ofList [[8, 7, 6], [2, 0, 3], [1, 4, 5]]),
   (21, Board.ofList [[8, 7, 6], [2, 4, 3], [1, 0, 5]]),
   (22, Board.ofList [[8, 7, 6], [4, 1, 2], [0, 5, 3]]),
   (23, Board.ofList [[8, 7, 6], [4, 1, 2], [5, 0, 3]]),
   (24, Board.ofList [[8, 7, 6], [5, 3, 1], [0, 2, 4]]),
   (25, Board.ofList [[8, 7, 6], [5, 4, 2], [1, 0, 3]]),
   (26, Board.ofList [[8, 7, 6], [5, 4, 2], [1, 3, 0]]),
   (27, Board.ofList [[8, 7, 6], [5, 4, 1], [3, 0, 2]]),
   (28, Board.ofList [[8, 7, 6], [5, 4, 3], [0, 2, 1]]),
   (29, Board.ofList [[8, 7, 6], [5, 4, 3], [2, 0, 1]]),
   (30, Board.ofList [[8, 7, 6], [5, 4, 3], [2, 1, 0]]),
   (31, Board.ofList [[8, 6, 7], [2, 5, 4], [3, 0, 1]])]

/-- The three heuristic strategies (`enum Heuristic`). -/
inductive Heuristic where
  | Blind
  | Hamming
  | Manhattan
deriving DecidableEq, Repr

/-- Loop body of the Hamming count: one grid position of
`for i in 0..3 { for j in 0..3 { ... } }` (the blank is skipped by `continue`). -/
def hammingStep (b : Board) (hamming : Nat) (p : Fin N × Fin N) : Nat :=
  if Board.GOAL.value_at p.1 p.2 ≠ b.value_at p.1 p.2 then
    if b.value_at p.1 p.2 = 0 then hamming else hamming + 1
  else hamming

/-- Loop body of the Manhattan sum: one label of `for i in 1..9 { ... }`. The
`i32` arithmetic never overflows on this grid, so it is modelled in `Int`;
a failing `position` lookup (a Rust panic) yields `none`. -/
def manhattanStep (b : Board) (manhattan : Int) (i : Nat) : Option Int :=
  match b.position i, Board.GOAL.position i with
  | some p, some pg =>
    some (manhattan + (((pg.1.val : Int) - (p.1.val : Int)).natAbs : Int)
      + (((pg.2.val : Int) - (p.2.val : Int)).natAbs : Int))
  | _, _ => none

/-- The labels `1..9` visited by the Manhattan loop. -/
def manhattanLabels : List Nat := [1, 2, 3, 4, 5, 6, 7, 8]

/-- `Heuristic::estimate`. `none` models the panics reachable through
`Board::position` and the final `try_into().unwrap()` (negative sum). -/
def Heuristic.estimate (h : Heuristic) (board : Board) : Option Nat :=
  match h with
  | .Blind => some 0
  | .Hamming => some (coordsList.foldl (hammingStep board) 0)
  | .Manhattan =>
    match manhattanLabels.foldlM (manhattanStep board) 0 with
    | none => none
    | some manhattan => if manhattan < 0 then none else some manhattan.toNat

example : Heuristic.Blind.estimate (Board.ofList [[8, 7, 3], [2, 0, 5], [1, 4, 6]]) = some 0 := by
  decide

example : Heuristic.Hamming.estimate (Board.ofList [[8, 7, 3], [2, 0, 5], [1, 4, 6]]) = some 7 := by
  decide

example :
    Heuristic.Manhattan.estimate (Board.ofList [[8, 7, 3], [2, 0, 5], [1, 4, 6]]) = some 14 := by
  decide

example : Board.GOAL.position EMPTY_CELL = some (2, 2) := by decide

example : Board.GOAL.apply Direction.Up = some (Board.ofList [[1, 2, 3], [4, 5, 0], [7, 8, 6]]) := by
  decide

example : Board.GOAL.apply Direction.Down = none := by decide

/-!  The min-heap (`src/min_heap.rs`): a thin wrapper around Rust's `std` `BinaryHeap`
of `Node { priority: Reverse<u32>, state: State }`.  The `BinaryHeap` itself is an
array-backed binary max-heap; its `push`/`pop` use the `sift_up` and
`sift_down_to_bottom` routines, which are modelled verbatim below on a `List`.
The element order `α` of states (Rust's `State: Ord` bound) is passed explicitly as a
boolean `a <= b` test `sle`.  Nodes are `(f_value, state)` pairs. -/

/-- The derived `Ord` on `Node`: `Reverse(priority)` first, then the state.
`nodeLe sle a b` decides `a <= b` in that order (so the max-heap keeps the
smallest `f_value` at the root). -/
def nodeLe (sle : α → α → Bool) (a b : Nat × α) : Bool :=
  if a.1 = b.1 then sle a.2 b.2 else decide (b.1 < a.1)

/-- `BinaryHeap::sift_up(start, pos)` with hole element `e`: bubble the hole at `pos`
towards the root while the element is greater than the parent, then write `e` into the
hole.  The hole index strictly decreases, so `fuel = pos` iterations always suffice
(when the fuel hits zero the hole is at the root and is filled, as in the source). -/
def siftUp (sle : α → α → Bool) (e : Nat × α) (start : Nat) :
    Nat → Nat → List (Nat × α) → List (Nat × α)
  | 0, pos, data => data.set pos e
  | fuel + 1, pos, data =>
    if start < pos then
      let parent := (pos - 1) / 2
      let pv := data.getD parent e
      if nodeLe sle e pv then data.set pos e
      else siftUp sle e start fuel parent (data.set pos pv)
    else data.set pos e

/-- The descent phase of `BinaryHeap::sift_down_to_bottom`: walk the hole down to a
leaf, always moving the greater child up; returns the data and the final hole index.
The child index at least doubles each round, so `fuel = endd + 1` always suffices. -/
def siftDownGo (sle : α → α → Bool) (e : Nat × α) (endd : Nat) :
    Nat → Nat → Nat → List (Nat × α) → List (Nat × α) × Nat
  | 0, pos, _, data => (data, pos)
  | fuel + 1, pos, child, data =>
    if child + 2 ≤ endd then
      let c := if nodeLe sle (data.getD child e) (data.getD (child + 1) e)
        then child + 1 else child
      siftDownGo sle e endd fuel c (2 * c + 1) (data.set pos (data.getD c e))
    else if child = endd - 1 then
      (data.set pos (data.getD child e), child)
    else (data, pos)

/-- `BinaryHeap::sift_down_to_bottom(0)` with hole element `e`: descend to a leaf,
then `sift_up` from there. -/
def siftDownToBottom (sle : α → α → Bool) (e : Nat × α) (data : List (Nat × α)) :
    List (Nat × α) :=
  let endd := data.length
  let r := siftDownGo sle e endd (endd + 1) 0 1 data
  siftUp sle e 0 r.2 r.2 r.1

/-- `struct MinHeap<State> { heap: BinaryHeap<Node<State>> }`. -/
structure MinHeap (α : Type) where
  heap : List (Nat × α)
deriving DecidableEq

/-- `MinHeap::new`. -/
def MinHeap.new : MinHeap α := ⟨[]⟩

/-- `MinHeap::insert(state, f_value)`: `BinaryHeap::push` of the node, i.e. append
then `sift_up(0, len - 1)`. -/
def MinHeap.insert (h : MinHeap α) (sle : α → α → Bool) (state : α) (f_value : Nat) :
    MinHeap α :=
  ⟨siftUp sle (f_value, state) 0 h.heap.length h.heap.length (h.heap ++ [(f_value, state)])⟩

/-- `MinHeap::pop`: `BinaryHeap::pop` (remove the last element; if the heap is still
non-empty swap it with the root and `sift_down_to_bottom(0)`), keeping only the state
of the popped node.  The popped heap is returned alongside (the source mutates). -/
def MinHeap.pop (h : MinHeap α) (sle : α → α → Bool) : Option (α × MinHeap α) :=
  match h.heap.getLast? with
  | none => none
  | some last =>
    match h.heap.dropLast with
    | [] => some (last.2, ⟨[]⟩)
    | r0 :: rest => some (r0.2, ⟨siftDownToBottom sle last (r0 :: rest)⟩)

/-- `MinHeap::is_empty`. -/
def MinHeap.is_empty (h : MinHeap α) : Bool := h.heap.isEmpty

/-- `MinHeap::len`. -/
def MinHeap.len (h : MinHeap α) : Nat := h.heap.length

/-- Pop repeatedly, recording each popped item together with the queue size
right after the pop. -/
def popSeq (sle : α → α → Bool) : Nat → MinHeap α → List (α × Nat)
  | 0, _ => []
  | fuel + 1, h =>
    match h.pop sle with
    | none => []
    | some (x, h2) => (x, h2.len) :: popSeq sle fuel h2

example :
    popSeq Nat.ble 6
      (((((MinHeap.new.insert Nat.ble 2 2).insert Nat.ble 3 3).insert Nat.ble 5 5).insert
          Nat.ble 1 1).insert Nat.ble 4 4) =
      [(1, 4), (2, 3), (3, 2), (4, 1), (5, 0)] := by decide

/-!  The search engine (`src/search.rs`).  The mutable locals of `search` form the
loop state `SState`.  `HashMap`s are modelled as association lists where an insert
prepends and a lookup takes the first match (last insert wins, as in a `HashMap`);
the `HashSet`s `expanded` and `path` are modelled as duplicate-free lists.
Wall-clock `runtime` is not modelled; the `expanded` field of the returned `Stats`
is kept (the source builds `Stats::new(0, runtime)`). -/

/-- First-match lookup in an association list (observably `HashMap::get`). -/
def mapGet (m : List (Board × β)) (k : Board) : Option β :=
  (m.find? fun e => e.1 == k).map fun e => e.2

/-- `HashSet::insert`: add the element unless it is already present. -/
def setInsert (s : List Board) (b : Board) : List Board :=
  if s.contains b then s else b :: s

/-- The mutable state of `search`'s main loop. -/
structure SState where
  heap : MinHeap Board
  costs : List (Board × Nat)
  parent_action : List (Board × (Board × Direction))
  expanded : List Board
  path : List Board
  directions : List Direction

/-- The `while !find` path-reconstruction loop run when the goal is popped: walk
`parent_action` backwards from `s`, pushing each recorded action, until the start
state (or a state without a parent) is reached.  `s`, `path` and `directions` are
the loop's mutated variables; their final values are returned.  The fuel only cuts
off a walk that the source would not terminate either (`none` = no result). -/
def reconstructPath (init_state : Board) (pa : List (Board × (Board × Direction))) :
    Nat → Board → List Board → List Direction →
    Option (Board × List Board × List Direction)
  | 0, _, _, _ => none
  | fuel + 1, s, path, directions =>
    match mapGet pa s with
    | some parent =>
      if parent.1 == init_state then
        some (parent.1, setInsert path parent.1, directions ++ [parent.2])
      else
        reconstructPath init_state pa fuel parent.1 (setInsert path parent.1)
          (directions ++ [parent.2])
    | none => some (s, path, directions)

/-- One successor step of the `for action in DIRECTIONS` expansion loop:
skip non-applicable moves, panic (`none`) if the popped state has no recorded cost,
and on a strictly better path record cost and parent and push the successor. -/
def expandOne (heuristic : Heuristic) (s : Board) (st : SState) (action : Direction) :
    Option SState :=
  match s.apply action with
  | none => some st
  | some sbis =>
    match mapGet st.costs s with
    | none => none
    | some cost_s =>
      let current_cost := cost_s + 1
      let found_better_path :=
        match mapGet st.costs sbis with
        | some previous_cost => decide (current_cost < previous_cost)
        | none => true
      if found_better_path then
        match heuristic.estimate sbis with
        | none => none
        | some est =>
          some { st with
            costs := (sbis, current_cost) :: st.costs
            parent_action := (sbis, (s, action)) :: st.parent_action
            heap := st.heap.insert Board.ble sbis (current_cost + est) }
      else some st

/-- The body of one `while !heap.is_empty()` iteration, after the pop of `s`
(and with the popped heap already in `st`): the stale-duplicate check, the goal
reconstruction block (which mutates `s` itself — it leaves `s` at the state where
the backward walk stopped), the successor expansion, and `expanded.insert(s)`. -/
def loopBody (heuristic : Heuristic) (init_state : Board) (s : Board) (st : SState) :
    Option SState :=
  if st.expanded.contains s then some st
  else
    match
      (if s == Board.GOAL then
        reconstructPath init_state st.parent_action (st.parent_action.length + 1) s
          st.path st.directions
      else some (s, st.path, st.directions)) with
    | none => none
    | some r =>
      match DIRECTIONS.foldlM (expandOne heuristic r.1) { st with path := r.2.1, directions := r.2.2 } with
      | none => none
      | some st2 => some { st2 with expanded := setInsert st2.expanded r.1 }

/-- The `while !heap.is_empty()` loop, with fuel bounding the number of iterations:
`some` is the loop state after the frontier empties, `none` means the fuel ran out
(or a panic was hit).  Fuel only makes the Rust loop's termination explicit. -/
def runLoop (heuristic : Heuristic) (init_state : Board) :
    Nat → SState → Option SState
  | 0, _ => none
  | fuel + 1, st =>
    match st.heap.pop Board.ble with
    | none => some st
    | some s => loopBody heuristic init_state s.1 { st with heap := s.2 } >>=
      runLoop heuristic init_state fuel

/-- The loop state as of entry into the `while` loop: `costs[init] = 0` and the
start state queued at `0 + h(init)`. -/
def initSearch (init_state : Board) (heuristic : Heuristic) : Option SState :=
  match heuristic.estimate init_state with
  | none => none
  | some est =>
    some { heap := MinHeap.new.insert Board.ble init_state (0 + est)
           costs := [(init_state, 0)]
           parent_action := []
           expanded := []
           path := []
           directions := [] }

/-- Lines 95–102 of `search.rs`, run after the loop: reverse the collected
directions and build the result pair.  The second component is the `expanded`
field of the returned `Stats`, which the source hardcodes as `Stats::new(0, runtime)`. -/
def finishSearch (st : SState) : Option (List Direction) × Nat :=
  (some st.directions.reverse, 0)

/-- `search(init_state, heuristic)`, as a fuel-bounded function: `none` when the
fuel does not cover the full run (or a panic path was hit), otherwise the returned
`(Option<Vec<Direction>>, Stats.expanded)` pair. -/
def searchFuel (fuel : Nat) (init_state : Board) (heuristic : Heuristic) :
    Option (Option (List Direction) × Nat) :=
  (initSearch init_state heuristic >>= runLoop heuristic init_state fuel).map finishSearch

/-- The loop state reached after at most `n` iterations of the `while` loop
(stopping early if the frontier empties); same body as `runLoop`. -/
def runSteps (heuristic : Heuristic) (init_state : Board) :
    Nat → SState → Option SState
  | 0, st => some st
  | n + 1, st =>
    match st.heap.pop Board.ble with
    | none => some st
    | some s => loopBody heuristic init_state s.1 { st with heap := s.2 } >>=
      runSteps heuristic init_state n

/-- `Board::is_valid_plan`: replay the actions, leaving the board unchanged on a
non-applicable action (the source only prints a message there), then compare with
the goal the function builds locally. -/
def Board.is_valid_plan (b : Board) (actions : List Direction) : Bool :=
  let goal := Board.ofList [[1, 2, 3], [4, 5, 6], [7, 8, 0]]
  let final := actions.foldl
    (fun board action =>
      match board.apply action with
      | some x => x
      | none => board)
    b
  final == goal

example :
    (Board.ofList [[1, 2, 3], [4, 5, 6], [0, 7, 8]]).is_valid_plan
      [Direction.Right, Direction.Right] = true := by decide

example :
    (Board.ofList [[1, 2, 3], [4, 5, 6], [0, 7, 8]]).is_valid_plan
      [Direction.Right, Direction.Up, Direction.Down, Direction.Right, Direction.Up] =
      false := by decide

example : (Board.ofList [[1, 2, 3], [4, 5, 6], [0, 7, 8]]).is_valid_plan [Direction.Left] =
    false := by decide

/-!  Lemmas about `Board::apply`. -/

/-- Two boards with the same cells are equal. -/
theorem Board.ext {a b : Board} (h : ∀ i j, a.cells i j = b.cells i j) : a = b := by
  cases a
  cases b
  congr 1
  funext i j
  exact h i j

/-- The board with the cells at `p` and `q` exchanged. -/
def exchange (b : Board) (p q : Fin N × Fin N) : Board :=
  ⟨fun i j =>
    if (i, j) = p then b.cells q.1 q.2
    else if (i, j) = q then b.cells p.1 p.2
    else b.cells i j⟩

/-- Moving the empty cell at `p` one step in direction `d` would leave the grid. -/
def leavesGrid (p : Fin N × Fin N) : Direction → Prop
  | .Up => p.1.val = 0
  | .Down => p.1.val = N - 1
  | .Left => p.2.val = 0
  | .Right => p.2.val = N - 1

instance (p : Fin N × Fin N) (d : Direction) : Decidable (leavesGrid p d) := by
  cases d <;> simp only [leavesGrid] <;> infer_instance

/-- `Board::position` returns a coordinate that holds the requested value. -/
theorem position_cell {b : Board} {v : Nat} {p : Fin N × Fin N}
    (h : b.position v = some p) : b.cells p.1 p.2 = v := by
  have hfind := List.find?_some h
  simpa using hfind

/-- `List.find?` returns the unique element satisfying the test, when there is one. -/
theorem find?_eq_some_of_unique {γ : Type} {f : γ → Bool} {q : γ} :
    ∀ l : List γ, q ∈ l → f q = true → (∀ r ∈ l, f r = true → r = q) →
      l.find? f = some q := by
  intro l
  induction l with
  | nil => intro hq; exact absurd hq (List.not_mem_nil q)
  | cons a t ih =>
    intro hq hfq hu
    by_cases ha : f a = true
    · have haq : a = q := hu a (List.mem_cons_self a t) ha
      rw [List.find?_cons_of_pos _ ha, haq]
    · have hqt : q ∈ t := by
        rcases List.mem_cons.mp hq with h | h
        · exact absurd (h ▸ hfq) (by simpa using ha)
        · exact h
      rw [List.find?_cons_of_neg _ ha]
      exact ih hqt hfq fun r hr hfr => hu r (List.mem_cons_of_mem a hr) hfr

/-- Every coordinate is listed in `coordsList`. -/
theorem mem_coordsList (p : Fin N × Fin N) : p ∈ coordsList := by
  obtain ⟨i, j⟩ := p
  fin_cases i <;> fin_cases j <;> decide

/-- `Board::position` finds the unique coordinate holding `v`, when there is one. -/
theorem position_eq_some_of_unique {b : Board} {v : Nat} {q : Fin N × Fin N}
    (hq : b.cells q.1 q.2 = v) (hu : ∀ r, b.cells r.1 r.2 = v → r = q) :
    b.position v = some q := by
  apply find?_eq_some_of_unique coordsList (mem_coordsList q) (by simpa using hq)
  intro r _ hr
  exact hu r (by simpa using hr)

/-- The target cell of a move differs from the empty cell's position. -/
theorem targetCell_ne {p q : Fin N × Fin N} {d : Direction}
    (h : targetCell p d = some q) : q ≠ p := by
  intro e
  subst e
  cases d <;> simp only [targetCell] at h <;> split at h <;>
    simp_all [Prod.ext_iff, Fin.ext_iff] <;> omega

/-- Applying the opposite direction from the target cell leads back. -/
theorem targetCell_opposite {p q : Fin N × Fin N} {d : Direction}
    (h : targetCell p d = some q) : targetCell q d.opposite = some p := by
  obtain ⟨x, y⟩ := p
  obtain ⟨qx, qy⟩ := q
  have hx := x.isLt
  have hy := y.isLt
  cases d <;> simp only [targetCell] at h <;> split at h <;>
    simp_all [Direction.opposite, targetCell, Prod.ext_iff, Fin.ext_iff] <;>
    constructor <;> (have hN : N = 3 := rfl; omega)

/-- The move computation fails exactly on the grid boundary. -/
theorem targetCell_none_iff {p : Fin N × Fin N} {d : Direction} :
    targetCell p d = none ↔ leavesGrid p d := by
  have h1 := p.1.isLt
  have h2 := p.2.isLt
  cases d <;> simp only [targetCell, leavesGrid] <;> split <;>
    simp_all <;> (have hN : N = 3 := rfl; omega)

/-- `Board::apply` in the applicable case: the result is the original board with
the empty cell and the target cell exchanged. -/
theorem apply_eq_exchange {b : Board} {p q : Fin N × Fin N} {d : Direction}
    (hpos : b.position EMPTY_CELL = some p) (ht : targetCell p d = some q) :
    b.apply d = some (exchange b p q) := by
  have hp0 : b.cells p.1 p.2 = EMPTY_CELL := position_cell hpos
  have hne : q ≠ p := targetCell_ne ht
  simp only [Board.apply, hpos, ht]
  congr 1
  apply Board.ext
  intro i j
  simp only [setCell, exchange]
  by_cases hq : (i, j) = q
  · have hnp : ¬((i, j) = p) := by rw [hq]; exact hne
    simp [hq, hnp, hne, hp0, EMPTY_CELL]
  · by_cases hp : (i, j) = p
    · simp only [if_neg hq, if_pos hp]
    · simp [hq, hp]

/-- `Board::apply` is `none` exactly when the move would leave the grid
(given that the board has an empty cell for `position` to find). -/
theorem apply_none_iff {b : Board} {p : Fin N × Fin N} {d : Direction}
    (hpos : b.position EMPTY_CELL = some p) :
    b.apply d = none ↔ leavesGrid p d := by
  rw [← targetCell_none_iff (p := p) (d := d)]
  simp only [Board.apply, hpos]
  cases h : targetCell p d <;> simp [h]

/-- Elimination form of a successful `Board::apply`. -/
theorem apply_some_elim {b t : Board} {d : Direction} (h : b.apply d = some t) :
    ∃ p q, b.position EMPTY_CELL = some p ∧ targetCell p d = some q ∧
      t = exchange b p q := by
  cases hpos : b.position EMPTY_CELL with
  | none => simp [Board.apply, hpos] at h
  | some p =>
    cases ht : targetCell p d with
    | none => simp [Board.apply, hpos, ht] at h
    | some q =>
      refine ⟨p, q, rfl, ht, ?_⟩
      have hx := apply_eq_exchange hpos ht
      rw [h] at hx
      exact Option.some.inj hx

/-- C4: for every board `b` (with the blank found at `p`) and direction `d`,
`Board::apply` returns `none` exactly when moving the blank one cell in direction `d`
would leave the `N×N` grid, and otherwise returns `some` of a new board equal to `b`
with the blank and the tile at the blank's target cell exchanged.  The receiver is
unchanged by construction: `apply` is a pure function on immutable boards, mirroring
the source, which clones the cell array. -/
theorem C4_apply_boundary_and_exchange (b : Board) (p : Fin N × Fin N) (d : Direction)
    (hpos : b.position EMPTY_CELL = some p) :
    (b.apply d = none ↔ leavesGrid p d) ∧
    (∀ q, targetCell p d = some q → b.apply d = some (exchange b p q)) :=
  ⟨apply_none_iff hpos, fun _ ht => apply_eq_exchange hpos ht⟩

theorem C4_witness :
    Board.GOAL.position EMPTY_CELL = some (2, 2) ∧
    ((Board.GOAL.apply Direction.Up = none ↔ leavesGrid (2, 2) Direction.Up) ∧
      (∀ q, targetCell (2, 2) Direction.Up = some q →
        Board.GOAL.apply Direction.Up = some (exchange Board.GOAL (2, 2) q))) :=
  ⟨by decide, C4_apply_boundary_and_exchange Board.GOAL (2, 2) Direction.Up (by decide)⟩

/-- C6: for every board with a unique blank cell and every direction such that
`apply` succeeds, applying the opposite direction to the result returns the original
board. -/
theorem C6_apply_opposite_roundtrip (b t : Board) (d : Direction)
    (hub : ∃! p : Fin N × Fin N, b.cells p.1 p.2 = EMPTY_CELL)
    (h : b.apply d = some t) : t.apply d.opposite = some b := by
  obtain ⟨p, q, hpos, ht, rfl⟩ := apply_some_elim h
  obtain ⟨p0, hp0cell, hp0u⟩ := hub
  have hbp : b.cells p.1 p.2 = EMPTY_CELL := position_cell hpos
  have hpp0 : p = p0 := hp0u p hbp
  have hqp : q ≠ p := targetCell_ne ht
  have hbq : b.cells q.1 q.2 ≠ EMPTY_CELL := fun hq0 => hqp ((hp0u q hq0).trans hpp0.symm)
  have hcells_q : (exchange b p q).cells q.1 q.2 = EMPTY_CELL := by
    simp [exchange, hqp, hbp]
  have huniq : ∀ r, (exchange b p q).cells r.1 r.2 = EMPTY_CELL → r = q := by
    intro r hr
    by_cases hrp : r = p
    · subst hrp
      simp only [exchange, Prod.mk.eta, if_pos rfl] at hr
      exact absurd hr hbq
    · by_cases hrq : r = q
      · exact hrq
      · have hbr : b.cells r.1 r.2 = EMPTY_CELL := by
          simpa [exchange, hrp, hrq] using hr
        exact absurd ((hp0u r hbr).trans hpp0.symm) hrp
  have hposq : (exchange b p q).position EMPTY_CELL = some q :=
    position_eq_some_of_unique hcells_q huniq
  have htq : targetCell q d.opposite = some p := targetCell_opposite ht
  rw [apply_eq_exchange hposq htq]
  congr 1
  apply Board.ext
  intro i j
  by_cases hiq : (i, j) = q
  · rw [Prod.ext_iff] at hiq
    obtain ⟨hi, hj⟩ := hiq
    subst hi
    subst hj
    simp [exchange, hqp]
  · by_cases hip : (i, j) = p
    · rw [Prod.ext_iff] at hip
      obtain ⟨hi, hj⟩ := hip
      subst hi
      subst hj
      simp [exchange, hqp, Ne.symm hqp]
    · simp [exchange, hiq, hip]

theorem C6_witness :
    ((∃! p : Fin N × Fin N, Board.GOAL.cells p.1 p.2 = EMPTY_CELL) ∧
      Board.GOAL.apply Direction.Up = some (Board.ofList [[1, 2, 3], [4, 5, 0], [7, 8, 6]])) ∧
    (Board.ofList [[1, 2, 3], [4, 5, 0], [7, 8, 6]]).apply Direction.Up.opposite =
      some Board.GOAL :=
  ⟨⟨⟨(2, 2), by decide, by decide⟩, by decide⟩,
    C6_apply_opposite_roundtrip Board.GOAL (Board.ofList [[1, 2, 3], [4, 5, 0], [7, 8, 6]])
      Direction.Up ⟨(2, 2), by decide, by decide⟩ (by decide)⟩

/-!  The permutation invariant. -/

/-- The multiset of cell labels of a board. -/
def labels (b : Board) : Multiset Nat := (b.toList : Multiset Nat)

/-- The permutation invariant: each label `0..8` occurs exactly once. -/
def PermInv (b : Board) : Prop := ∀ l, l < 9 → (labels b).count l = 1

instance (b : Board) : Decidable (PermInv b) :=
  inferInstanceAs (Decidable (∀ l, l < 9 → (labels b).count l = 1))

/-- The label multiset is the image of the coordinate universe. -/
theorem labels_eq_map_univ (b : Board) :
    labels b = Multiset.map (fun p : Fin N × Fin N => b.cells p.1 p.2) Finset.univ.val := by
  have h : (coordsList : Multiset (Fin N × Fin N)) = Finset.univ.val := by decide
  rw [← h]
  simp [labels, Board.toList]

/-- Exchanging two cells does not change the multiset of labels. -/
theorem labels_exchange (b : Board) (p q : Fin N × Fin N) :
    labels (exchange b p q) = labels b := by
  rw [labels_eq_map_univ, labels_eq_map_univ]
  have hfun : (fun r : Fin N × Fin N => (exchange b p q).cells r.1 r.2) =
      (fun r : Fin N × Fin N => b.cells r.1 r.2) ∘ (Equiv.swap p q) := by
    funext r
    simp only [Function.comp, exchange, Equiv.swap_apply_def, Prod.mk.eta]
    by_cases hrp : r = p
    · simp [hrp]
    · by_cases hrq : r = q
      · rcases eq_or_ne q p with hqp | hqp
        · exact absurd (hrq.trans hqp) hrp
        · simp [hrp, hrq, hqp]
      · simp [hrp, hrq]
  rw [hfun, ← Multiset.map_map]
  congr 1
  have hswap := Finset.map_univ_equiv (Equiv.swap p q)
  calc Multiset.map (⇑(Equiv.swap p q)) Finset.univ.val
      = (Finset.univ.map (Equiv.swap p q).toEmbedding).val := by rw [Finset.map_val]; rfl
    _ = Finset.univ.val := by rw [hswap]

/-- A board satisfying the permutation invariant has the goal's multiset of labels. -/
theorem labels_eq_goal_of_permInv {b : Board} (hb : PermInv b) :
    labels b = labels Board.GOAL := by
  ext l
  by_cases hl : l < 9
  · rw [hb l hl]
    interval_cases l <;> decide
  · have hcard : Multiset.card (labels b) = 9 := by
      simp [labels, Board.toList, coordsList]
    have hbl : l ∉ labels b := by
      intro hmem
      have hsub : insert l (Finset.range 9) ⊆ (labels b).toFinset := by
        intro x hx
        rcases Finset.mem_insert.mp hx with rfl | hx9
        · exact Multiset.mem_toFinset.mpr hmem
        · refine Multiset.mem_toFinset.mpr (Multiset.count_pos.mp ?_)
          rw [hb x (Finset.mem_range.mp hx9)]
          norm_num
      have hsum : ∑ x in (labels b).toFinset, (labels b).count x = 9 := by
        rw [Multiset.toFinset_sum_count_eq]
        exact hcard
      have hle : ∑ x in insert l (Finset.range 9), (labels b).count x ≤
          ∑ x in (labels b).toFinset, (labels b).count x :=
        Finset.sum_le_sum_of_subset hsub
      have hlnot : l ∉ Finset.range 9 := by
        simp only [Finset.mem_range]
        omega
      rw [Finset.sum_insert hlnot] at hle
      have hrange : ∑ x in Finset.range 9, (labels b).count x = 9 := by
        rw [Finset.sum_congr rfl fun x hx => hb x (Finset.mem_range.mp hx)]
        simp
      have hpos : 0 < (labels b).count l := Multiset.count_pos.mpr hmem
      omega
    have hgl : l ∉ labels Board.GOAL := by
      intro hmem
      have hlt : ∀ x ∈ labels Board.GOAL, x < 9 := by decide
      exact hl (hlt l hmem)
    rw [Multiset.count_eq_zero.mpr hbl, Multiset.count_eq_zero.mpr hgl]

/-- Under the permutation invariant, each label `l < 9` sits at a unique coordinate. -/
theorem exists_unique_cell_of_permInv {b : Board} (hb : PermInv b) {l : Nat} (hl : l < 9) :
    ∃ p : Fin N × Fin N, b.cells p.1 p.2 = l ∧ ∀ r, b.cells r.1 r.2 = l → r = p := by
  have h1 : (labels b).count l = 1 := hb l hl
  rw [labels_eq_map_univ, Multiset.count_map] at h1
  obtain ⟨a, ha⟩ := Multiset.card_eq_one.mp h1
  refine ⟨a, ?_, ?_⟩
  · have hmem : a ∈ Multiset.filter (fun p : Fin N × Fin N => l = b.cells p.1 p.2)
        Finset.univ.val := by
      rw [ha]
      exact Multiset.mem_singleton_self a
    exact (Multiset.of_mem_filter hmem).symm
  · intro r hr
    have hrmem : r ∈ Multiset.filter (fun p : Fin N × Fin N => l = b.cells p.1 p.2)
        Finset.univ.val :=
      Multiset.mem_filter.mpr ⟨Finset.mem_val.mpr (Finset.mem_univ r), hr.symm⟩
    rw [ha] at hrmem
    exact Multiset.mem_singleton.mp hrmem

/-- Under the permutation invariant, `Board::position` succeeds on each label `l < 9`
and returns its unique coordinate. -/
theorem position_of_permInv {b : Board} (hb : PermInv b) {l : Nat} (hl : l < 9) :
    ∃ p, b.position l = some p ∧ b.cells p.1 p.2 = l ∧
      ∀ r, b.cells r.1 r.2 = l → r = p := by
  obtain ⟨p, hp, hu⟩ := exists_unique_cell_of_permInv hb hl
  exact ⟨p, position_eq_some_of_unique hp hu, hp, hu⟩

/-- C5: for every board satisfying the permutation invariant (each label `0..8`
occurs exactly once) and every direction, a successful `apply` yields a board that
again contains each label exactly once — its multiset of labels equals the goal's. -/
theorem C5_apply_preserves_permutation (b t : Board) (d : Direction)
    (hperm : PermInv b) (h : b.apply d = some t) :
    labels t = labels Board.GOAL ∧ ∀ l, l < 9 → (labels t).count l = 1 := by
  obtain ⟨p, q, hpos, ht, rfl⟩ := apply_some_elim h
  have h1 : labels (exchange b p q) = labels b := labels_exchange b p q
  have h2 : labels b = labels Board.GOAL := labels_eq_goal_of_permInv hperm
  refine ⟨h1.trans h2, fun l hl => ?_⟩
  rw [h1]
  exact hperm l hl

theorem C5_witness :
    (PermInv Board.GOAL ∧
      Board.GOAL.apply Direction.Up = some (Board.ofList [[1, 2, 3], [4, 5, 0], [7, 8, 6]])) ∧
    (labels (Board.ofList [[1, 2, 3], [4, 5, 0], [7, 8, 6]]) = labels Board.GOAL ∧
      ∀ l, l < 9 → (labels (Board.ofList [[1, 2, 3], [4, 5, 0], [7, 8, 6]])).count l = 1) :=
  ⟨⟨by decide, by decide⟩,
    C5_apply_preserves_permutation Board.GOAL (Board.ofList [[1, 2, 3], [4, 5, 0], [7, 8, 6]])
      Direction.Up (by decide) (by decide)⟩

/-!  Heuristic dominance (C7). -/

/-- The grid positions counted by the Hamming heuristic: a non-blank label that
differs from the goal's label at that position. -/
def mismatchSet (b : Board) : Finset (Fin N × Fin N) :=
  Finset.univ.filter fun p =>
    Board.GOAL.cells p.1 p.2 ≠ b.cells p.1 p.2 ∧ b.cells p.1 p.2 ≠ 0

/-- The labels whose position differs between the board and the goal. -/
def misLabels (b : Board) : Finset Nat :=
  (Finset.Icc 1 8).filter fun l => b.position l ≠ Board.GOAL.position l

/-- The Manhattan distance contributed by one label (0 on a failed lookup). -/
def tileDist (b : Board) (l : Nat) : Nat :=
  match b.position l, Board.GOAL.position l with
  | some p, some pg =>
    ((pg.1.val : Int) - (p.1.val : Int)).natAbs + ((pg.2.val : Int) - (p.2.val : Int)).natAbs
  | _, _ => 0

/-- A left fold by a step that adds a weight is the sum of the weights. -/
theorem foldl_add_eq_sum {γ : Type} (f : Nat → γ → Nat) (w : γ → Nat)
    (hf : ∀ acc x, f acc x = acc + w x) :
    ∀ (l : List γ) (acc : Nat), l.foldl f acc = acc + (l.map w).sum := by
  intro l
  induction l with
  | nil => intro acc; simp
  | cons a t ih =>
    intro acc
    rw [List.foldl_cons, hf, List.map_cons, List.sum_cons, ih, Nat.add_assoc]

/-- The Hamming loop counts exactly the mismatched non-blank positions. -/
theorem hamming_eq_card (b : Board) :
    coordsList.foldl (hammingStep b) 0 = (mismatchSet b).card := by
  have hstep : ∀ (acc : Nat) (p : Fin N × Fin N), hammingStep b acc p = acc +
      (if Board.GOAL.cells p.1 p.2 ≠ b.cells p.1 p.2 ∧ b.cells p.1 p.2 ≠ 0
        then 1 else 0) := by
    intro acc p
    by_cases h1 : Board.GOAL.cells p.1 p.2 ≠ b.cells p.1 p.2
    · by_cases h2 : b.cells p.1 p.2 = 0
      · simp [hammingStep, Board.value_at, h1, h2]
      · simp [hammingStep, Board.value_at, h1, h2]
    · simp [hammingStep, Board.value_at, h1]
  rw [foldl_add_eq_sum _ _ hstep, Nat.zero_add]
  rw [mismatchSet, Finset.card_filter]
  have huniv : (coordsList : Multiset (Fin N × Fin N)) = Finset.univ.val := by decide
  calc (coordsList.map fun p =>
          if Board.GOAL.cells p.1 p.2 ≠ b.cells p.1 p.2 ∧ b.cells p.1 p.2 ≠ 0
          then 1 else 0).sum
      = (Multiset.map (fun p : Fin N × Fin N =>
          if Board.GOAL.cells p.1 p.2 ≠ b.cells p.1 p.2 ∧ b.cells p.1 p.2 ≠ 0
          then 1 else 0) ↑coordsList).sum := by
        rw [Multiset.map_coe, Multiset.sum_coe]
    _ = _ := by rw [huniv]; rfl

/-- All labels of a permutation-invariant board are below 9. -/
theorem cells_lt_of_permInv {b : Board} (hb : PermInv b) (p : Fin N × Fin N) :
    b.cells p.1 p.2 < 9 := by
  have hmem : b.cells p.1 p.2 ∈ labels b := by
    rw [labels_eq_map_univ]
    exact Multiset.mem_map_of_mem _ (Finset.mem_val.mpr (Finset.mem_univ p))
  rw [labels_eq_goal_of_permInv hb] at hmem
  have hlt : ∀ x ∈ labels Board.GOAL, x < 9 := by decide
  exact hlt _ hmem

/-- The positions of the goal board, with uniqueness, for each label `1..8`. -/
theorem goal_position_facts : ∀ l ∈ Finset.Icc 1 8, ∃ q : Fin N × Fin N,
    Board.GOAL.position l = some q ∧ Board.GOAL.cells q.1 q.2 = l ∧
    ∀ r : Fin N × Fin N, Board.GOAL.cells r.1 r.2 = l → r = q := by decide

/-- The mismatched positions correspond one-to-one to the displaced labels. -/
theorem card_mismatch_eq_card_misLabels {b : Board} (hb : PermInv b) :
    (mismatchSet b).card = (misLabels b).card := by
  apply Finset.card_bij (fun p _ => b.cells p.1 p.2)
  · intro p hp
    rw [mismatchSet, Finset.mem_filter] at hp
    obtain ⟨-, hne, hnz⟩ := hp
    have hl9 : b.cells p.1 p.2 < 9 := cells_lt_of_permInv hb p
    have hmemI : b.cells p.1 p.2 ∈ Finset.Icc 1 8 :=
      Finset.mem_Icc.mpr ⟨by omega, by omega⟩
    rw [misLabels, Finset.mem_filter]
    refine ⟨hmemI, ?_⟩
    obtain ⟨pb, hpb, hpbc, hpbu⟩ := position_of_permInv hb hl9
    obtain ⟨qg, hqg, hqgc, hqgu⟩ := goal_position_facts (b.cells p.1 p.2) hmemI
    have hp_pb : p = pb := hpbu p rfl
    rw [hpb, hqg]
    intro heq
    have hpqg : p = qg := hp_pb.trans (Option.some.inj heq)
    apply hne
    calc Board.GOAL.cells p.1 p.2 = Board.GOAL.cells qg.1 qg.2 := by rw [hpqg]
      _ = b.cells p.1 p.2 := hqgc
  · intro p1 h1 p2 h2 heq
    rw [mismatchSet, Finset.mem_filter] at h1
    have hl9 : b.cells p1.1 p1.2 < 9 := cells_lt_of_permInv hb p1
    obtain ⟨pb, hpb, hpbc, hpbu⟩ := position_of_permInv hb hl9
    have e1 : p1 = pb := hpbu p1 rfl
    have e2 : p2 = pb := hpbu p2 heq.symm
    rw [e1, e2]
  · intro l hl
    rw [misLabels, Finset.mem_filter, Finset.mem_Icc] at hl
    obtain ⟨⟨hl1, hl8⟩, hlpos⟩ := hl
    obtain ⟨p, hp, hpc, hpu⟩ := position_of_permInv hb (show l < 9 by omega)
    obtain ⟨qg, hqg, hqgc, hqgu⟩ :=
      goal_position_facts _ (Finset.mem_Icc.mpr ⟨hl1, hl8⟩)
    have hpmem : p ∈ mismatchSet b := by
      rw [mismatchSet, Finset.mem_filter]
      refine ⟨Finset.mem_univ p, ?_, by omega⟩
      intro hgp
      rw [hpc] at hgp
      have : p = qg := hqgu p hgp
      apply hlpos
      rw [hp, hqg, this]
    exact ⟨p, hpmem, hpc⟩

/-- Under the permutation invariant the Manhattan fold succeeds and computes the
sum of the per-label distances. -/
theorem manhattan_fold_eq {b : Board} (hb : PermInv b) :
    ∀ (l : List Nat), (∀ x ∈ l, x < 9) → ∀ acc : Int,
      l.foldlM (manhattanStep b) acc =
        some (acc + (((l.map (tileDist b)).sum : Nat) : Int)) := by
  intro l
  induction l with
  | nil => intro _ acc; simp
  | cons a t ih =>
    intro hmem acc
    have ha9 : a < 9 := hmem a (List.mem_cons_self a t)
    have hgperm : PermInv Board.GOAL := by decide
    obtain ⟨p, hp, -, -⟩ := position_of_permInv hb ha9
    obtain ⟨q, hq, -, -⟩ := position_of_permInv hgperm ha9
    have hstep : manhattanStep b acc a =
        some (acc + ((tileDist b a : Nat) : Int)) := by
      rw [manhattanStep, tileDist, hp, hq]
      push_cast
      ring_nf
    rw [List.foldlM_cons, hstep]
    show (t.foldlM (manhattanStep b) _) = _
    rw [ih (fun x hx => hmem x (List.mem_cons_of_mem a hx))]
    congr 1
    rw [List.map_cons, List.sum_cons]
    push_cast
    ring

/-- The Manhattan estimate under the permutation invariant. -/
theorem manhattan_estimate {b : Board} (hb : PermInv b) :
    Heuristic.estimate Heuristic.Manhattan b =
      some ((manhattanLabels.map (tileDist b)).sum) := by
  have hfold := manhattan_fold_eq hb manhattanLabels (by decide) 0
  rw [zero_add] at hfold
  show (match manhattanLabels.foldlM (manhattanStep b) 0 with
    | none => none
    | some manhattan => if manhattan < 0 then none else some manhattan.toNat) = _
  rw [hfold]
  have hnn : ¬((((manhattanLabels.map (tileDist b)).sum : Nat) : Int) < 0) :=
    not_lt.mpr (Int.natCast_nonneg _)
  show (if (((manhattanLabels.map (tileDist b)).sum : Nat) : Int) < 0 then none
    else some ((((manhattanLabels.map (tileDist b)).sum : Nat) : Int)).toNat) = _
  rw [if_neg hnn, Int.toNat_natCast]

/-- Each displaced label contributes at least 1 to the Manhattan sum. -/
theorem misLabels_card_le_manhattan {b : Board} (hb : PermInv b) :
    (misLabels b).card ≤ (manhattanLabels.map (tileDist b)).sum := by
  have hicc : ((Finset.Icc 1 8).val : Multiset Nat) = (manhattanLabels : Multiset Nat) := by
    decide
  have hsum : ∑ l in Finset.Icc 1 8, tileDist b l =
      (manhattanLabels.map (tileDist b)).sum := by
    calc ∑ l in Finset.Icc 1 8, tileDist b l
        = (Multiset.map (tileDist b) (Finset.Icc 1 8).val).sum := rfl
      _ = _ := by rw [hicc, Multiset.map_coe, Multiset.sum_coe]
  rw [misLabels, Finset.card_filter, ← hsum]
  apply Finset.sum_le_sum
  intro l hl
  by_cases hne : b.position l ≠ Board.GOAL.position l
  · rw [if_pos hne]
    rw [Finset.mem_Icc] at hl
    have hgperm : PermInv Board.GOAL := by decide
    obtain ⟨p, hp, -, -⟩ := position_of_permInv hb (show l < 9 by omega)
    obtain ⟨q, hq, -, -⟩ := position_of_permInv hgperm (show l < 9 by omega)
    have hdist : tileDist b l = ((q.1.val : Int) - (p.1.val : Int)).natAbs +
        ((q.2.val : Int) - (p.2.val : Int)).natAbs := by
      simp only [tileDist, hp, hq]
    rw [hdist]
    have hpq : p ≠ q := by
      intro e
      apply hne
      rw [hp, hq, e]
    have hvals : p.1.val ≠ q.1.val ∨ p.2.val ≠ q.2.val := by
      by_contra hc
      push_neg at hc
      exact hpq (Prod.ext_iff.mpr ⟨Fin.ext hc.1, Fin.ext hc.2⟩)
    rcases hvals with hv | hv
    · have h1 : 1 ≤ ((q.1.val : Int) - (p.1.val : Int)).natAbs := by omega
      omega
    · have h1 : 1 ≤ ((q.2.val : Int) - (p.2.val : Int)).natAbs := by omega
      omega
  · rw [if_neg hne]
    exact Nat.zero_le _

/-- C7: for every board satisfying the permutation invariant, the Manhattan
estimate is at least the Hamming estimate. -/
theorem C7_manhattan_dominates_hamming (b : Board) (hperm : PermInv b) :
    ∃ hv mv, Heuristic.estimate Heuristic.Hamming b = some hv ∧
      Heuristic.estimate Heuristic.Manhattan b = some mv ∧ hv ≤ mv := by
  refine ⟨coordsList.foldl (hammingStep b) 0, (manhattanLabels.map (tileDist b)).sum,
    rfl, manhattan_estimate hperm, ?_⟩
  rw [hamming_eq_card, card_mismatch_eq_card_misLabels hperm]
  exact misLabels_card_le_manhattan hperm

theorem C7_witness :
    PermInv (Board.ofList [[8, 7, 3], [2, 0, 5], [1, 4, 6]]) ∧
    ∃ hv mv,
      Heuristic.estimate Heuristic.Hamming (Board.ofList [[8, 7, 3], [2, 0, 5], [1, 4, 6]]) =
        some hv ∧
      Heuristic.estimate Heuristic.Manhattan (Board.ofList [[8, 7, 3], [2, 0, 5], [1, 4, 6]]) =
        some mv ∧ hv ≤ mv :=
  ⟨by decide,
    C7_manhattan_dominates_hamming (Board.ofList [[8, 7, 3], [2, 0, 5], [1, 4, 6]]) (by decide)⟩

/-- C8: inserting items with priorities `[2, 3, 5, 1, 4]` into the min-heap and then
popping repeatedly yields them in ascending priority order `[1, 2, 3, 4, 5]`; popping
an empty heap returns `none`; and `len` equals the number of pending items after
every insert and pop (the second components of `popSeq` are the sizes after each pop). -/
theorem C8_minheap_ordering :
    ((MinHeap.new : MinHeap Nat).len = 0 ∧
      ((MinHeap.new : MinHeap Nat).insert Nat.ble 2 2).len = 1 ∧
      (((MinHeap.new : MinHeap Nat).insert Nat.ble 2 2).insert Nat.ble 3 3).len = 2 ∧
      ((((MinHeap.new : MinHeap Nat).insert Nat.ble 2 2).insert Nat.ble 3 3).insert
        Nat.ble 5 5).len = 3 ∧
      (((((MinHeap.new : MinHeap Nat).insert Nat.ble 2 2).insert Nat.ble 3 3).insert
        Nat.ble 5 5).insert Nat.ble 1 1).len = 4 ∧
      ((((((MinHeap.new : MinHeap Nat).insert Nat.ble 2 2).insert Nat.ble 3 3).insert
        Nat.ble 5 5).insert Nat.ble 1 1).insert Nat.ble 4 4).len = 5) ∧
    popSeq Nat.ble 6
      ((((((MinHeap.new : MinHeap Nat).insert Nat.ble 2 2).insert Nat.ble 3 3).insert
        Nat.ble 5 5).insert Nat.ble 1 1).insert Nat.ble 4 4) =
      [(1, 4), (2, 3), (3, 2), (4, 1), (5, 0)] ∧
    (MinHeap.new : MinHeap Nat).pop Nat.ble = none := by
  decide

/-- C2: counter-demonstration on the code.  With the start state equal to the goal,
the goal is popped and finalized on the very first loop iteration, yet the frontier
is then non-empty and the second iteration finalizes a second state: the engine does
not stop once the goal is finalized, and it finalizes more than one state. -/
theorem C2_goal_start_keeps_expanding :
    ∃ st0 st1 st2,
      initSearch Board.GOAL Heuristic.Blind = some st0 ∧
      runSteps Heuristic.Blind Board.GOAL 1 st0 = some st1 ∧
      st1.expanded = [Board.GOAL] ∧
      st1.heap.is_empty = false ∧
      runSteps Heuristic.Blind Board.GOAL 2 st0 = some st2 ∧
      st2.expanded.length = 2 ∧
      Board.GOAL ∈ st2.expanded := by
  refine ⟨_, _, _, rfl, rfl, ?_, ?_, rfl, ?_, ?_⟩ <;> decide

/-- C3: the modelled `search` can never produce the absent/`None` "no path" outcome:
whenever the loop terminates (any fuel, any start state, any heuristic), line 102
wraps the reconstructed directions in `Some`. -/
theorem C3_search_never_returns_none (fuel : Nat) (init_state : Board)
    (heuristic : Heuristic) :
    Option.elim (searchFuel fuel init_state heuristic) True (fun r => r.1.isSome = true) := by
  unfold searchFuel
  cases initSearch init_state heuristic >>= runLoop heuristic init_state fuel with
  | none => exact trivial
  | some st => rfl

/-- C9: the `Stats` value returned by `search` always reports `expanded = 0` —
the source builds `Stats::new(0, runtime)` — even though searches do finalize
states: a single loop iteration from the one-move benchmark instance already
finalizes one state. -/
theorem C9_stats_expanded_hardcoded_zero :
    (∀ st : SState, (finishSearch st).2 = 0) ∧
    (∃ st0 st1,
      initSearch (Board.ofList [[1, 2, 3], [4, 5, 6], [7, 0, 8]]) Heuristic.Blind =
        some st0 ∧
      runSteps Heuristic.Blind (Board.ofList [[1, 2, 3], [4, 5, 6], [7, 0, 8]]) 1 st0 =
        some st1 ∧
      1 ≤ st1.expanded.length) := by
  refine ⟨fun st => rfl, _, _, rfl, rfl, ?_⟩
  decide

/-- The fold described by the claim for C10: apply each applicable action and leave
the board unchanged on a non-applicable one. -/
def applyPlanSkipping (b : Board) (actions : List Direction) : Board :=
  actions.foldl (fun board action => (board.apply action).getD board) b

/-- C10: `is_valid_plan` treats a non-applicable action as a no-op and continues with
the remaining actions, so it returns `true` exactly when folding the applicable
actions over the board ends in the goal; in particular the plan `[Left, Right, Right]`
from the two-move instance starts with a non-applicable action and is accepted. -/
theorem C10_plan_skips_inapplicable :
    (∀ (b : Board) (actions : List Direction),
      b.is_valid_plan actions =
        (applyPlanSkipping b actions == Board.ofList [[1, 2, 3], [4, 5, 6], [7, 8, 0]])) ∧
    ((Board.ofList [[1, 2, 3], [4, 5, 6], [0, 7, 8]]).apply Direction.Left = none ∧
      (Board.ofList [[1, 2, 3], [4, 5, 6], [0, 7, 8]]).is_valid_plan
        [Direction.Left, Direction.Right, Direction.Right] = true) := by
  refine ⟨fun b actions => ?_, by decide, by decide⟩
  have hfun : (fun (board : Board) (action : Direction) =>
      match board.apply action with
      | some x => x
      | none => board) =
      fun (board : Board) (action : Direction) => (board.apply action).getD board := by
    funext board action
    cases board.apply action <;> rfl
  simp only [Board.is_valid_plan, applyPlanSkipping, hfun]

end Puzzle
